import Mathlib

/-!
Verification development for the semantic-text-aligner repository.

The development shallowly embeds the two core modules:

* `core.py` / `aligner.py`: the DTW-style alignment engine
  (`align_sequences`, `_pair_cost`, `_cosine_distance`).
* `stitcher.py`: the chunk-stitching engine (`_compatible_and_merge`,
  `_find_canonical_anchor`, `_matching_overlap_length`,
  `_trailing_permutable_block_len`, `_stitch_core`, `stitch_all_chunks`).

Tokens are `Option String` (with `none` for a gap).  The dynamic program of
`align_sequences` only consumes the values of
`_pair_cost(-, -, embeddings, gap_penalty)` through `+` and `<`, so the DP is
embedded generically over a linear ordered commutative ring of costs and an
arbitrary pair-cost function: every embedding lookup and gap penalty induces
one such function, and the Python floats are modelled by exact arithmetic.
The numeric cost model itself (`_pair_cost` with a concrete embedding lookup
and the cosine distance) is embedded separately over `ℝ`.
-/

/-- A row of an alignment: `(left, right)`, `none` meaning a gap.
Mirrors `AlignedRow = Tuple[Optional[str], Optional[str]]`. -/
abbrev AlignedRow : Type := Option String × Option String

/-- Backpointer moves of the DP: diagonal, up (consume a left token against a
gap) and left (consume a right token against a gap).  Mirrors the characters
`"D"`, `"U"`, `"L"` stored in `back`. -/
inductive Move : Type
  | D
  | U
  | L
deriving DecidableEq

/-- `left[i-1]` / `right[j-1]` style indexing: the token of `xs` at index `i`
(total, out-of-range positions are never consulted by the embedding). -/
def tok (xs : List (Option String)) (i : ℕ) : Option String :=
  xs.getD i none

/-- The inner-cell selection of `align_sequences`:

    best_cost = cost_diag; move = "D"
    if cost_up < best_cost:   best_cost, move = cost_up, "U"
    if cost_left < best_cost: best_cost, move = cost_left, "L"
-/
def cell {α : Type} [LinearOrder α] (costDiag costUp costLeft : α) : α × Move :=
  let best1 : α × Move :=
    if costUp < costDiag then (costUp, Move.U) else (costDiag, Move.D)
  if costLeft < best1.1 then (costLeft, Move.L) else best1

/-- Row `i+1` of the DP table, built from row `i` (`prev`), exactly as the
inner loop of `align_sequences` fills `dp[i][j]` and `back[i][j]`:
`dp[i][0] = i * gap_penalty` with move `"U"`, and the inner cells combine
`cost_diag`, `cost_up`, `cost_left` through `cell`. -/
def dpRowNext {α : Type} [LinearOrderedCommRing α]
    (pc : Option String → Option String → α) (g : α)
    (left right : List (Option String)) (i : ℕ)
    (prev : ℕ → α × Option Move) : ℕ → α × Option Move
  | 0 => (((i + 1 : ℕ) : α) * g, some Move.U)
  | j + 1 =>
    let costDiag := (prev j).1 + pc (tok left i) (tok right j)
    let costUp := (prev (j + 1)).1 + g
    let costLeft := (dpRowNext pc g left right i prev j).1 + g
    let c := cell costDiag costUp costLeft
    (c.1, some c.2)

/-- The DP table of `align_sequences`, as a function of the cell indices.
Row `0` is the boundary row (`dp[0][j] = j * gap_penalty`, move `"L"`),
and row `i+1` is produced from row `i` by `dpRowNext`. -/
def dpRow {α : Type} [LinearOrderedCommRing α]
    (pc : Option String → Option String → α) (g : α)
    (left right : List (Option String)) : ℕ → ℕ → α × Option Move
  | 0 => fun j =>
    match j with
    | 0 => (0, none)
    | j + 1 => (((j + 1 : ℕ) : α) * g, some Move.L)
  | i + 1 => dpRowNext pc g left right i (dpRow pc g left right i)

/-- `dp[i][j]` of `align_sequences`. -/
def dp {α : Type} [LinearOrderedCommRing α]
    (pc : Option String → Option String → α) (g : α)
    (left right : List (Option String)) (i j : ℕ) : α :=
  (dpRow pc g left right i j).1

/-- `back[i][j]` of `align_sequences` (`none` only at the origin cell). -/
def back {α : Type} [LinearOrderedCommRing α]
    (pc : Option String → Option String → α) (g : α)
    (left right : List (Option String)) (i j : ℕ) : Option Move :=
  (dpRow pc g left right i j).2

/-- The backtracking loop of `align_sequences`:

    while i > 0 or j > 0: follow back[i][j], emitting a row per move

with explicit fuel for termination (the caller supplies `m + n`, enough for
any path since every move decreases `i + j`).  The `none` results model the
`RuntimeError("Backpointer missing ...")` branch, which is unreachable on the
table built above.  Rows are produced front-to-back, which is the Python
append-then-reverse. -/
def tracebackAux {α : Type} [LinearOrderedCommRing α]
    (pc : Option String → Option String → α) (g : α)
    (left right : List (Option String)) : ℕ → ℕ → ℕ → Option (List AlignedRow)
  | 0, i, j => if i = 0 ∧ j = 0 then some [] else none
  | fuel + 1, i, j =>
    if i = 0 ∧ j = 0 then some []
    else
      match back pc g left right i j with
      | some Move.D =>
          (tracebackAux pc g left right fuel (i - 1) (j - 1)).map
            (fun rows => rows ++ [(tok left (i - 1), tok right (j - 1))])
      | some Move.U =>
          (tracebackAux pc g left right fuel (i - 1) j).map
            (fun rows => rows ++ [(tok left (i - 1), none)])
      | some Move.L =>
          (tracebackAux pc g left right fuel i (j - 1)).map
            (fun rows => rows ++ [(none, tok right (j - 1))])
      | none => none

/-- `align_sequences(input, gap_penalty, model)` with the two input lists
already normalized (`_normalize_input`) and the pair-cost function `pc`
standing for `_pair_cost(-, -, embeddings, gap_penalty)` for the embedding
lookup obtained from the model.  Returns `none` exactly on the (unreachable)
missing-backpointer error. -/
def align_sequences {α : Type} [LinearOrderedCommRing α]
    (pc : Option String → Option String → α) (g : α)
    (left right : List (Option String)) : Option (List AlignedRow) :=
  tracebackAux pc g left right (left.length + right.length)
    left.length right.length

/-- `_pair_cost` specialized to the empty embedding lookup (every `dict.get`
misses): both gaps cost `0`, every other pair costs the gap penalty. -/
def pair_cost_empty {α : Type} [LinearOrderedCommRing α] (g : α) :
    Option String → Option String → α
  | none, none => 0
  | none, some _ => g
  | some _, none => g
  | some _, some _ => g

/-! ### Stitching engine (`stitcher.py`) -/

/-- `_compatible_and_merge(a, b)`: `None` on a left/right conflict or when the
rows share no equal non-gap value; otherwise the union-fill row. -/
def compatible_and_merge (a b : AlignedRow) : Option AlignedRow :=
  if (a.1 ≠ none ∧ b.1 ≠ none ∧ a.1 ≠ b.1) ∨ (a.2 ≠ none ∧ b.2 ≠ none ∧ a.2 ≠ b.2)
  then none
  else if ¬ ((a.1 ≠ none ∧ a.1 = b.1) ∨ (a.2 ≠ none ∧ a.2 = b.2))
  then none
  else some
    ((match a.1 with | some v => some v | none => b.1),
     (match a.2 with | some v => some v | none => b.2))

/-- `_find_canonical_anchor(rows)`: index of the first row with both sides
non-gap. -/
def find_canonical_anchor : List AlignedRow → Option ℕ
  | [] => none
  | (some _, some _) :: _ => some 0
  | _ :: rest => (find_canonical_anchor rest).map (· + 1)

/-- The while-loop of `_matching_overlap_length`, phrased on the suffixes
`tail_window[tail_idx:]` and `new_chunk[head_idx:]`: merge pairwise while
compatible, returning the run length and the merged rows. -/
def matching_overlap_loop : List AlignedRow → List AlignedRow → ℕ × List AlignedRow
  | t :: ts, h :: hs =>
    (match compatible_and_merge t h with
     | none => (0, [])
     | some merged =>
       let rest := matching_overlap_loop ts hs
       (rest.1 + 1, merged :: rest.2))
  | _, _ => (0, [])

/-- `_matching_overlap_length(tail_window, new_chunk, tail_idx, head_idx)`. -/
def matching_overlap_length (tailWindow newChunk : List AlignedRow)
    (tailIdx headIdx : ℕ) : ℕ × List AlignedRow :=
  matching_overlap_loop (tailWindow.drop tailIdx) (newChunk.drop headIdx)

/-- `_trailing_permutable_block_len`'s loop over `reversed(window)`: count
while exactly one side is a gap. -/
def permutable_count : List AlignedRow → ℕ
  | [] => 0
  | (l, r) :: rest =>
    if (l.isNone) ≠ (r.isNone) then permutable_count rest + 1 else 0

/-- `_trailing_permutable_block_len(window)`: length of the trailing run of
rows in which exactly one side is a gap. -/
def trailing_permutable_block_len (window : List AlignedRow) : ℕ :=
  permutable_count window.reverse

/-- Python `xs[-k:]` for `k > 0` (the last `k` elements, or all of `xs` when
it is shorter). -/
def takeLast {β : Type} (xs : List β) (k : ℕ) : List β :=
  xs.drop (xs.length - k)

/-- The inner `for t_idx in range(anchor_idx_tail, -1, -1)` of `_stitch_core`
step 5: scan the updated tail window downward from `t` for the first row
compatible with `row`, returning its index and the merged row. -/
def scan_down (w : List AlignedRow) (row : AlignedRow) : ℕ → Option (ℕ × AlignedRow)
  | 0 =>
    (match compatible_and_merge (w.getD 0 (none, none)) row with
     | some merged => some (0, merged)
     | none => none)
  | t + 1 =>
    (match compatible_and_merge (w.getD (t + 1) (none, none)) row with
     | some merged => some (t + 1, merged)
     | none => scan_down w row t)

/-- The `head_prefix` loop of `_stitch_core` step 5.  Carries the updated tail
window and the earliest rewritten index; returns those plus the leftover
(unconsumed) head rows in their original order. -/
def merge_head_rows (anchorIdxTail : ℕ) :
    List AlignedRow → List AlignedRow → Option ℕ →
    List AlignedRow × Option ℕ × List AlignedRow
  | [], w, earliest => (w, earliest, [])
  | headRow :: rest, w, earliest =>
    (match scan_down w headRow anchorIdxTail with
     | none =>
       let r := merge_head_rows anchorIdxTail rest w earliest
       (r.1, r.2.1, headRow :: r.2.2)
     | some (tIdx, merged) =>
       if merged ≠ w.getD tIdx (none, none) then
         merge_head_rows anchorIdxTail rest (w.set tIdx merged)
           (some (match earliest with
                  | none => tIdx
                  | some e => min e tIdx))
       else
         merge_head_rows anchorIdxTail rest w earliest)

/-- `tail_window.index(anchor_row)`: index of the first row equal to the
anchor. -/
def first_eq_idx : List AlignedRow → AlignedRow → Option ℕ
  | [], _ => none
  | row :: rest, anchor =>
    if row = anchor then some 0 else (first_eq_idx rest anchor).map (· + 1)

/-- The fallback loop of `_find_anchor_in_tail`: first index whose row merges
with the anchor to exactly the anchor row. -/
def first_merge_idx : List AlignedRow → AlignedRow → Option ℕ
  | [], _ => none
  | row :: rest, anchor =>
    if compatible_and_merge row anchor = some anchor then some 0
    else (first_merge_idx rest anchor).map (· + 1)

/-- `_find_anchor_in_tail()` of `_stitch_core`: exact match first, then
merge-equality. -/
def find_anchor_in_tail (tailWindow : List AlignedRow) (anchor : AlignedRow) :
    Option ℕ :=
  match first_eq_idx tailWindow anchor with
  | some idx => some idx
  | none => first_merge_idx tailWindow anchor

/-- `_stitch_core(prev_tail, new_chunk, overlap_size)`; the result is
`(stitched_rows, trim_from_tail, anchor_found, anchor_present_in_head)`. -/
def stitch_core (prevTail newChunk : List AlignedRow) (overlapSize : ℕ) :
    List AlignedRow × ℕ × Bool × Bool :=
  let W := 2 * overlapSize
  let tailWindow := if 0 < W then takeLast prevTail W else []
  let headWindow := if 0 < W then newChunk.take W else []
  match find_canonical_anchor headWindow with
  | none => (newChunk, 0, false, false)
  | some anchorIdxHead =>
    let anchorRow := headWindow.getD anchorIdxHead (none, none)
    match find_anchor_in_tail tailWindow anchorRow with
    | none => (newChunk, 0, false, true)
    | some anchorIdxTail =>
      let headPre := headWindow.take anchorIdxHead
      let merged := merge_head_rows anchorIdxTail headPre tailWindow none
      let updatedTailWindow := merged.1
      let leftoverHeadRows := merged.2.2
      let rewriteIdx :=
        match merged.2.1 with
        | some e => e
        | none => anchorIdxTail
      let startInPrev := prevTail.length - tailWindow.length + rewriteIdx
      let overlap := matching_overlap_length updatedTailWindow newChunk
        anchorIdxTail anchorIdxHead
      let trimFromTail := prevTail.length - startInPrev
      let rewrittenPre := (updatedTailWindow.drop rewriteIdx).take
        (anchorIdxTail - rewriteIdx)
      let stitchedRows :=
        leftoverHeadRows ++ rewrittenPre ++ overlap.2 ++
          newChunk.drop (anchorIdxHead + overlap.1)
      (stitchedRows, trimFromTail, true, true)

/-- The body of the fold loop of `stitch_all_chunks`: slice the tail window,
run `_stitch_core`, trim the accumulator per the anchor flags, and append the
stitched rows. -/
def stitch_step (overlapSize : ℕ) (accumulator chunk : List AlignedRow) :
    List AlignedRow :=
  let W := 2 * overlapSize
  let tailWindow := if 0 < W then takeLast accumulator W else []
  let r := stitch_core tailWindow chunk overlapSize
  let stitchedRows := r.1
  let trimFromTail := r.2.1
  let anchorFound := r.2.2.1
  let anchorInHead := r.2.2.2
  let trimmed :=
    if anchorFound = true ∧ trimFromTail ≠ 0 then
      accumulator.take (accumulator.length - trimFromTail)
    else if anchorFound = false ∧ anchorInHead = true then
      let trimLen := min (trailing_permutable_block_len tailWindow) overlapSize
      if trimLen ≠ 0 then accumulator.take (accumulator.length - trimLen)
      else accumulator
    else accumulator
  trimmed ++ stitchedRows

/-- `stitch_all_chunks(chunks, overlap_size)`: fold the chunk list through
`stitch_step`, starting from the first chunk (empty input gives `[]`). -/
def stitch_all_chunks (chunks : List (List AlignedRow)) (overlapSize : ℕ) :
    List AlignedRow :=
  match chunks with
  | [] => []
  | first :: rest => rest.foldl (stitch_step overlapSize) first

/-! ### Numeric cost model (`_cosine_distance`, `_pair_cost`) over `ℝ` -/

/-- `_cosine_distance(vec_a, vec_b)`: `1 - cosine similarity`, with an early
`1.0` when either norm is zero; the similarity is clamped to `[-1, 1]`.
Sums are left folds, as Python's `sum` over a generator. -/
noncomputable def cosine_distance (vecA vecB : List ℝ) : ℝ :=
  let dotProduct := (vecA.zip vecB).foldl (fun acc p => acc + p.1 * p.2) 0
  let normA := Real.sqrt (vecA.foldl (fun acc x => acc + x * x) 0)
  let normB := Real.sqrt (vecB.foldl (fun acc y => acc + y * y) 0)
  if normA = 0 ∨ normB = 0 then 1
  else 1 - max (min (dotProduct / (normA * normB)) 1) (-1)

/-- `_pair_cost(left_item, right_item, embeddings, gap_penalty)`: `0` for two
gaps, the gap penalty when one side is a gap or a vector is missing from the
lookup, otherwise the cosine distance of the two vectors. -/
noncomputable def pair_cost (embeddings : String → Option (List ℝ)) (g : ℝ) :
    Option String → Option String → ℝ
  | none, none => 0
  | none, some _ => g
  | some _, none => g
  | some l, some r =>
    match embeddings l, embeddings r with
    | some vecL, some vecR => cosine_distance vecL vecR
    | none, _ => g
    | some _, none => g

/-- Cosine distance as the specification words it:
`1 − clamp(dot(u,v)/(‖u‖·‖v‖), −1, 1)`, with no special case (in `ℝ`,
division by a zero denominator yields `0`). -/
noncomputable def cosine_distance_spec (vecA vecB : List ℝ) : ℝ :=
  1 - max (min (((vecA.zip vecB).foldl (fun acc p => acc + p.1 * p.2) 0) /
      (Real.sqrt (vecA.foldl (fun acc x => acc + x * x) 0) *
       Real.sqrt (vecB.foldl (fun acc y => acc + y * y) 0))) 1) (-1)

/-- `pairCost` as the specification words it: both sides gap gives `0`,
exactly one gap gives the gap penalty, a missing vector gives the gap
penalty, and otherwise the clamped cosine-distance formula. -/
noncomputable def pair_cost_spec (embeddings : String → Option (List ℝ))
    (g : ℝ) : Option String → Option String → ℝ
  | none, none => 0
  | none, some _ => g
  | some _, none => g
  | some l, some r =>
    match embeddings l, embeddings r with
    | some vecL, some vecR => cosine_distance_spec vecL vecR
    | none, _ => g
    | some _, none => g

/-! ### Theorems -/

/-- C10: For every overlap size, `stitch_all_chunks` on an empty chunk
list returns the empty alignment (the `StopIteration` branch). -/
theorem C10_empty_chunks (overlapSize : ℕ) :
    stitch_all_chunks [] overlapSize = [] :=
  rfl

/-- C5: Folding a one-element chunk list is the identity:
`stitch_all_chunks [x] k = x` for every alignment `x` and overlap size `k`. -/
theorem C5_singleton_identity (x : List AlignedRow) (overlapSize : ℕ) :
    stitch_all_chunks [x] overlapSize = x :=
  rfl

/-- With overlap size `0` both windows are empty, no anchor is found, and a
stitch step is plain append. -/
lemma stitch_step_zero (accumulator chunk : List AlignedRow) :
    stitch_step 0 accumulator chunk = accumulator ++ chunk :=
  rfl

lemma foldl_stitch_step_zero (chunks : List (List AlignedRow)) :
    ∀ accumulator : List AlignedRow,
      chunks.foldl (stitch_step 0) accumulator = accumulator ++ chunks.flatten := by
  induction chunks with
  | nil => intro accumulator; simp
  | cons c rest ih =>
    intro accumulator
    simp only [List.foldl_cons, stitch_step_zero, ih, List.flatten_cons,
      List.append_assoc]

/-- C4: Non-overlapping stitching is plain concatenation:
`stitch_all_chunks chunks 0` is the concatenation of the chunks in order. -/
theorem C4_concat_law (chunks : List (List AlignedRow)) :
    stitch_all_chunks chunks 0 = chunks.flatten := by
  match chunks with
  | [] => rfl
  | first :: rest =>
    simp only [stitch_all_chunks, foldl_stitch_step_zero, List.flatten_cons]

/-- `merge` as the claim words it: incompatible exactly when both left values
are non-gap and differ, or both right values are non-gap and differ, or the
rows share no equal non-gap value on either side; otherwise the union-fill
row whose left is `a`'s left if non-gap else `b`'s left, and likewise for
right. -/
def merge_spec (a b : AlignedRow) : Option AlignedRow :=
  if (a.1 ≠ none ∧ b.1 ≠ none ∧ a.1 ≠ b.1) ∨ (a.2 ≠ none ∧ b.2 ≠ none ∧ a.2 ≠ b.2)
     ∨ ¬ ((a.1 ≠ none ∧ a.1 = b.1) ∨ (a.2 ≠ none ∧ a.2 = b.2))
  then none
  else some
    ((if a.1.isSome then a.1 else b.1), (if a.2.isSome then a.2 else b.2))

/-- C2: `_compatible_and_merge` is exactly the merge the spec describes:
`none` precisely on a left conflict, a right conflict, or no shared non-gap
value, and the union-fill row (with `a` taking precedence) otherwise. -/
theorem C2_merge_characterization (a b : AlignedRow) :
    compatible_and_merge a b = merge_spec a b := by
  rcases a with ⟨a1, a2⟩
  rcases b with ⟨b1, b2⟩
  unfold compatible_and_merge merge_spec
  dsimp only
  by_cases hc : (a1 ≠ none ∧ b1 ≠ none ∧ a1 ≠ b1) ∨ (a2 ≠ none ∧ b2 ≠ none ∧ a2 ≠ b2)
  · rcases hc with hc1 | hc2
    · rw [if_pos (Or.inl hc1), if_pos (Or.inl hc1)]
    · rw [if_pos (Or.inr hc2), if_pos (Or.inr (Or.inl hc2))]
  · by_cases hs : (a1 ≠ none ∧ a1 = b1) ∨ (a2 ≠ none ∧ a2 = b2)
    · rw [if_neg hc, if_neg (not_not_intro hs),
        if_neg (show ¬ _ from fun h => h.elim (fun hA => hc (Or.inl hA))
          (fun h2 => h2.elim (fun hB => hc (Or.inr hB)) (fun h3 => h3 hs)))]
      cases a1 <;> cases a2 <;> rfl
    · rw [if_neg hc, if_pos hs, if_pos (Or.inr (Or.inr hs))]

lemma takeLast_length_le {β : Type} (xs : List β) (k : ℕ) :
    (takeLast xs k).length ≤ k := by
  simp only [takeLast, List.length_drop]
  omega

lemma takeLast_of_length_le {β : Type} (xs : List β) (k : ℕ)
    (h : xs.length ≤ k) : takeLast xs k = xs := by
  simp only [takeLast, Nat.sub_eq_zero_of_le h, List.drop_zero]

lemma takeLast_takeLast {β : Type} (xs : List β) (k : ℕ) :
    takeLast (takeLast xs k) k = takeLast xs k :=
  takeLast_of_length_le _ _ (takeLast_length_le xs k)

/-- When the head window has a canonical anchor but the tail window has no
matching or merge-equal row, `_stitch_core` flags "anchor only in head" and
returns the new chunk unchanged with no trimming. -/
lemma stitch_core_anchor_head_only (prevTail newChunk : List AlignedRow)
    (overlapSize : ℕ) (anchorIdxHead : ℕ)
    (h1 : find_canonical_anchor
      (if 0 < 2 * overlapSize then newChunk.take (2 * overlapSize) else []) =
      some anchorIdxHead)
    (h2 : find_anchor_in_tail
      (if 0 < 2 * overlapSize then takeLast prevTail (2 * overlapSize) else [])
      ((if 0 < 2 * overlapSize then newChunk.take (2 * overlapSize) else []).getD
        anchorIdxHead (none, none)) = none) :
    stitch_core prevTail newChunk overlapSize = (newChunk, 0, false, true) := by
  unfold stitch_core
  simp only [h1, h2]

/-- C3: In a fold step of `stitch_all_chunks`, when the canonical anchor
exists in the head window of the new chunk but no matching or merge-equal row
exists in the tail window, the accumulator is trimmed by exactly
`min L overlapSize` rows from its end — `L` the length of the maximal
trailing run of tail-window rows with exactly one side a gap — and the new
chunk is appended unchanged. -/
theorem C3_anchor_head_only_trim (overlapSize : ℕ)
    (accumulator chunk : List AlignedRow) (anchorIdxHead : ℕ)
    (h1 : find_canonical_anchor
      (if 0 < 2 * overlapSize then chunk.take (2 * overlapSize) else []) =
      some anchorIdxHead)
    (h2 : find_anchor_in_tail
      (if 0 < 2 * overlapSize then takeLast accumulator (2 * overlapSize) else [])
      ((if 0 < 2 * overlapSize then chunk.take (2 * overlapSize) else []).getD
        anchorIdxHead (none, none)) = none) :
    stitch_step overlapSize accumulator chunk =
      accumulator.take (accumulator.length -
        min (trailing_permutable_block_len
          (if 0 < 2 * overlapSize then takeLast accumulator (2 * overlapSize)
           else []))
          overlapSize) ++ chunk := by
  have htw : (if 0 < 2 * overlapSize then
        takeLast (if 0 < 2 * overlapSize then
          takeLast accumulator (2 * overlapSize) else []) (2 * overlapSize)
      else []) =
      (if 0 < 2 * overlapSize then takeLast accumulator (2 * overlapSize)
       else []) := by
    by_cases h : 0 < 2 * overlapSize
    · simp [h, takeLast_takeLast]
    · simp [h]
  have hcore := stitch_core_anchor_head_only
    (if 0 < 2 * overlapSize then takeLast accumulator (2 * overlapSize) else [])
    chunk overlapSize anchorIdxHead h1 (by rw [htw]; exact h2)
  unfold stitch_step
  simp only [hcore]
  rw [if_pos (⟨trivial, trivial⟩ : True ∧ True)]
  by_cases hz : min (trailing_permutable_block_len
      (if 0 < 2 * overlapSize then takeLast accumulator (2 * overlapSize)
       else [])) overlapSize = 0
  · rw [if_neg (not_not_intro hz), hz, Nat.sub_zero, List.take_length]
    simp
  · rw [if_pos hz]
    simp

/-- Witness for C3: overlap `1`, accumulator `[("a", gap)]`, chunk
`[("x","y")]`: the anchor `("x","y")` is in the head window only, the
trailing permutable run has length `1`, and the whole accumulator row is
trimmed. -/
theorem C3_witness :
    (find_canonical_anchor (if 0 < 2 * 1 then
        List.take (2 * 1) [((some "x", some "y") : AlignedRow)] else []) =
      some 0)
    ∧ (find_anchor_in_tail (if 0 < 2 * 1 then
        takeLast [((some "a", none) : AlignedRow)] (2 * 1) else [])
        ((if 0 < 2 * 1 then
          List.take (2 * 1) [((some "x", some "y") : AlignedRow)] else []).getD
          0 (none, none)) = none)
    ∧ stitch_step 1 [((some "a", none) : AlignedRow)]
        [((some "x", some "y") : AlignedRow)] =
      List.take ([((some "a", none) : AlignedRow)].length -
        min (trailing_permutable_block_len (if 0 < 2 * 1 then
          takeLast [((some "a", none) : AlignedRow)] (2 * 1) else [])) 1)
        [((some "a", none) : AlignedRow)] ++
        [((some "x", some "y") : AlignedRow)] :=
  ⟨by decide, by decide,
    C3_anchor_head_only_trim 1 [(some "a", none)] [(some "x", some "y")] 0
      (by decide) (by decide)⟩

/-! ### DP table lemmas -/

lemma dp_zero_zero {α : Type} [LinearOrderedCommRing α]
    (pc : Option String → Option String → α) (g : α)
    (left right : List (Option String)) : dp pc g left right 0 0 = 0 :=
  rfl

lemma dp_succ_zero {α : Type} [LinearOrderedCommRing α]
    (pc : Option String → Option String → α) (g : α)
    (left right : List (Option String)) (i : ℕ) :
    dp pc g left right (i + 1) 0 = ((i + 1 : ℕ) : α) * g :=
  rfl

lemma back_succ_zero {α : Type} [LinearOrderedCommRing α]
    (pc : Option String → Option String → α) (g : α)
    (left right : List (Option String)) (i : ℕ) :
    back pc g left right (i + 1) 0 = some Move.U :=
  rfl

lemma dp_zero_succ {α : Type} [LinearOrderedCommRing α]
    (pc : Option String → Option String → α) (g : α)
    (left right : List (Option String)) (j : ℕ) :
    dp pc g left right 0 (j + 1) = ((j + 1 : ℕ) : α) * g :=
  rfl

lemma back_zero_succ {α : Type} [LinearOrderedCommRing α]
    (pc : Option String → Option String → α) (g : α)
    (left right : List (Option String)) (j : ℕ) :
    back pc g left right 0 (j + 1) = some Move.L :=
  rfl

/-- The three candidate costs of the inner cell `(i+1, j+1)`, combined by
`cell` exactly as the source combines `cost_diag`, `cost_up`, `cost_left`. -/
def cellAt {α : Type} [LinearOrderedCommRing α]
    (pc : Option String → Option String → α) (g : α)
    (left right : List (Option String)) (i j : ℕ) : α × Move :=
  cell (dp pc g left right i j + pc (tok left i) (tok right j))
    (dp pc g left right i (j + 1) + g)
    (dp pc g left right (i + 1) j + g)

lemma dp_succ_succ {α : Type} [LinearOrderedCommRing α]
    (pc : Option String → Option String → α) (g : α)
    (left right : List (Option String)) (i j : ℕ) :
    dp pc g left right (i + 1) (j + 1) = (cellAt pc g left right i j).1 :=
  rfl

lemma back_succ_succ {α : Type} [LinearOrderedCommRing α]
    (pc : Option String → Option String → α) (g : α)
    (left right : List (Option String)) (i j : ℕ) :
    back pc g left right (i + 1) (j + 1) = some (cellAt pc g left right i j).2 :=
  rfl

/-- The move recorded by `cell` in strict-comparison form: left only when
strictly below the better of diagonal and up, else up only when strictly
below diagonal, else diagonal. -/
lemma cell_snd_eq {α : Type} [LinearOrder α] (a b c : α) :
    (cell a b c).2 =
      if c < min a b then Move.L else if b < a then Move.U else Move.D := by
  unfold cell
  by_cases h1 : b < a
  · rw [min_eq_right h1.le]
    by_cases h2 : c < b <;> simp [h1, h2]
  · rw [min_eq_left (not_lt.mp h1)]
    by_cases h2 : c < a <;> simp [h1, h2]

/-- C7: Boundary cells: `dp[i][0] = i·g` with move up and
`dp[0][j] = j·g` with move left; and in every inner cell the recorded move is
left only when its cost is strictly below the best of diagonal and up, else
up only when its cost is strictly below diagonal, else diagonal — the
diagonal-over-up-over-left tie-break. -/
theorem C7_dp_boundary_and_tiebreak {α : Type} [LinearOrderedCommRing α]
    (pc : Option String → Option String → α) (g : α)
    (left right : List (Option String)) :
    (∀ i : ℕ, dp pc g left right (i + 1) 0 = ((i + 1 : ℕ) : α) * g ∧
      back pc g left right (i + 1) 0 = some Move.U)
    ∧ (∀ j : ℕ, dp pc g left right 0 (j + 1) = ((j + 1 : ℕ) : α) * g ∧
      back pc g left right 0 (j + 1) = some Move.L)
    ∧ (∀ i j : ℕ, back pc g left right (i + 1) (j + 1) = some
        (if dp pc g left right (i + 1) j + g <
            min (dp pc g left right i j + pc (tok left i) (tok right j))
              (dp pc g left right i (j + 1) + g)
         then Move.L
         else if dp pc g left right i (j + 1) + g <
            dp pc g left right i j + pc (tok left i) (tok right j)
         then Move.U
         else Move.D)) := by
  refine ⟨fun i => ⟨rfl, rfl⟩, fun j => ⟨rfl, rfl⟩, fun i j => ?_⟩
  rw [back_succ_succ]
  unfold cellAt
  rw [cell_snd_eq]

/-! ### Traceback stepping equations and invariants -/

lemma tracebackAux_zero_zero {α : Type} [LinearOrderedCommRing α]
    (pc : Option String → Option String → α) (g : α)
    (left right : List (Option String)) (fuel : ℕ) :
    tracebackAux pc g left right fuel 0 0 = some [] := by
  cases fuel <;> rfl

lemma tracebackAux_succ_zero {α : Type} [LinearOrderedCommRing α]
    (pc : Option String → Option String → α) (g : α)
    (left right : List (Option String)) (fuel i : ℕ) :
    tracebackAux pc g left right (fuel + 1) (i + 1) 0 =
      (tracebackAux pc g left right fuel i 0).map
        (fun rows => rows ++ [(tok left i, none)]) :=
  rfl

lemma tracebackAux_zero_succ {α : Type} [LinearOrderedCommRing α]
    (pc : Option String → Option String → α) (g : α)
    (left right : List (Option String)) (fuel j : ℕ) :
    tracebackAux pc g left right (fuel + 1) 0 (j + 1) =
      (tracebackAux pc g left right fuel 0 j).map
        (fun rows => rows ++ [(none, tok right j)]) :=
  rfl

lemma tracebackAux_succ_succ_D {α : Type} [LinearOrderedCommRing α]
    (pc : Option String → Option String → α) (g : α)
    (left right : List (Option String)) (fuel i j : ℕ)
    (h : (cellAt pc g left right i j).2 = Move.D) :
    tracebackAux pc g left right (fuel + 1) (i + 1) (j + 1) =
      (tracebackAux pc g left right fuel i j).map
        (fun rows => rows ++ [(tok left i, tok right j)]) := by
  have hb : back pc g left right (i + 1) (j + 1) = some Move.D := by
    rw [back_succ_succ, h]
  simp only [tracebackAux, hb]
  rfl

lemma tracebackAux_succ_succ_U {α : Type} [LinearOrderedCommRing α]
    (pc : Option String → Option String → α) (g : α)
    (left right : List (Option String)) (fuel i j : ℕ)
    (h : (cellAt pc g left right i j).2 = Move.U) :
    tracebackAux pc g left right (fuel + 1) (i + 1) (j + 1) =
      (tracebackAux pc g left right fuel i (j + 1)).map
        (fun rows => rows ++ [(tok left i, none)]) := by
  have hb : back pc g left right (i + 1) (j + 1) = some Move.U := by
    rw [back_succ_succ, h]
  simp only [tracebackAux, hb]
  rfl

lemma tracebackAux_succ_succ_L {α : Type} [LinearOrderedCommRing α]
    (pc : Option String → Option String → α) (g : α)
    (left right : List (Option String)) (fuel i j : ℕ)
    (h : (cellAt pc g left right i j).2 = Move.L) :
    tracebackAux pc g left right (fuel + 1) (i + 1) (j + 1) =
      (tracebackAux pc g left right fuel (i + 1) j).map
        (fun rows => rows ++ [(none, tok right j)]) := by
  have hb : back pc g left right (i + 1) (j + 1) = some Move.L := by
    rw [back_succ_succ, h]
  simp only [tracebackAux, hb]
  rfl

lemma filterMap_fst_singleton (r : AlignedRow) :
    [r].filterMap Prod.fst = r.1.toList := by
  rcases r with ⟨l, _⟩
  cases l <;> rfl

lemma filterMap_snd_singleton (r : AlignedRow) :
    [r].filterMap Prod.snd = r.2.toList := by
  rcases r with ⟨_, r2⟩
  cases r2 <;> rfl

lemma tok_cons_succ (x : Option String) (xs : List (Option String)) (i : ℕ) :
    tok (x :: xs) (i + 1) = tok xs i :=
  rfl

lemma take_filterMap_succ (xs : List (Option String)) :
    ∀ i, i < xs.length →
      (xs.take (i + 1)).filterMap id =
        (xs.take i).filterMap id ++ (tok xs i).toList := by
  induction xs with
  | nil => intro i h; simp at h
  | cons x xs ih =>
    intro i h
    match i with
    | 0 =>
      cases x <;> simp [tok]
    | i + 1 =>
      have h' : i < xs.length := by
        simpa using h
      rw [List.take_succ_cons, List.take_succ_cons, tok_cons_succ]
      cases x <;> simp [ih i h', List.append_assoc]

/-- The backtracking loop, run from cell `(i, j)` with enough fuel, succeeds
and produces rows whose non-gap left components are exactly the non-gap
elements of `left.take i`, in order, and likewise on the right. -/
lemma traceback_spec {α : Type} [LinearOrderedCommRing α]
    (pc : Option String → Option String → α) (g : α)
    (left right : List (Option String)) :
    ∀ fuel i j : ℕ, i + j ≤ fuel → i ≤ left.length → j ≤ right.length →
      ∃ rows, tracebackAux pc g left right fuel i j = some rows ∧
        rows.filterMap Prod.fst = (left.take i).filterMap id ∧
        rows.filterMap Prod.snd = (right.take j).filterMap id := by
  intro fuel
  induction fuel with
  | zero =>
    intro i j hf hi hj
    have hi0 : i = 0 := by omega
    have hj0 : j = 0 := by omega
    subst hi0; subst hj0
    exact ⟨[], tracebackAux_zero_zero pc g left right 0, by simp, by simp⟩
  | succ fuel ih =>
    intro i j hf hi hj
    match i, j with
    | 0, 0 =>
      exact ⟨[], tracebackAux_zero_zero pc g left right (fuel + 1),
        by simp, by simp⟩
    | i + 1, 0 =>
      obtain ⟨rows, hrows, hfst, hsnd⟩ := ih i 0 (by omega) (by omega) (by omega)
      refine ⟨rows ++ [(tok left i, none)], ?_, ?_, ?_⟩
      · rw [tracebackAux_succ_zero, hrows]
        rfl
      · rw [List.filterMap_append, hfst, filterMap_fst_singleton,
          take_filterMap_succ left i (by omega)]
      · rw [List.filterMap_append, hsnd, filterMap_snd_singleton]
        simp
    | 0, j + 1 =>
      obtain ⟨rows, hrows, hfst, hsnd⟩ := ih 0 j (by omega) (by omega) (by omega)
      refine ⟨rows ++ [(none, tok right j)], ?_, ?_, ?_⟩
      · rw [tracebackAux_zero_succ, hrows]
        rfl
      · rw [List.filterMap_append, hfst, filterMap_fst_singleton]
        simp
      · rw [List.filterMap_append, hsnd, filterMap_snd_singleton,
          take_filterMap_succ right j (by omega)]
    | i + 1, j + 1 =>
      cases hmv : (cellAt pc g left right i j).2 with
      | D =>
        obtain ⟨rows, hrows, hfst, hsnd⟩ :=
          ih i j (by omega) (by omega) (by omega)
        refine ⟨rows ++ [(tok left i, tok right j)], ?_, ?_, ?_⟩
        · rw [tracebackAux_succ_succ_D pc g left right fuel i j hmv, hrows]
          rfl
        · rw [List.filterMap_append, hfst, filterMap_fst_singleton,
            take_filterMap_succ left i (by omega)]
        · rw [List.filterMap_append, hsnd, filterMap_snd_singleton,
            take_filterMap_succ right j (by omega)]
      | U =>
        obtain ⟨rows, hrows, hfst, hsnd⟩ :=
          ih i (j + 1) (by omega) (by omega) (by omega)
        refine ⟨rows ++ [(tok left i, none)], ?_, ?_, ?_⟩
        · rw [tracebackAux_succ_succ_U pc g left right fuel i j hmv, hrows]
          rfl
        · rw [List.filterMap_append, hfst, filterMap_fst_singleton,
            take_filterMap_succ left i (by omega)]
        · rw [List.filterMap_append, hsnd, filterMap_snd_singleton]
          simp
      | L =>
        obtain ⟨rows, hrows, hfst, hsnd⟩ :=
          ih (i + 1) j (by omega) (by omega) (by omega)
        refine ⟨rows ++ [(none, tok right j)], ?_, ?_, ?_⟩
        · rw [tracebackAux_succ_succ_L pc g left right fuel i j hmv, hrows]
          rfl
        · rw [List.filterMap_append, hfst, filterMap_fst_singleton]
          simp
        · rw [List.filterMap_append, hsnd, filterMap_snd_singleton,
            take_filterMap_succ right j (by omega)]

/-- C6: `align_sequences` always succeeds, and the subsequence of non-gap
left components of its rows is exactly the subsequence of non-gap elements of
the left input, in order — and symmetrically on the right: no reversal, no
drop, no duplication. -/
theorem C6_monotone_projection {α : Type} [LinearOrderedCommRing α]
    (pc : Option String → Option String → α) (g : α)
    (left right : List (Option String)) :
    (align_sequences pc g left right).map
        (fun rows => (rows.filterMap Prod.fst, rows.filterMap Prod.snd)) =
      some (left.filterMap id, right.filterMap id) := by
  obtain ⟨rows, hrows, hfst, hsnd⟩ := traceback_spec pc g left right
    (left.length + right.length) left.length right.length le_rfl le_rfl le_rfl
  unfold align_sequences
  rw [hrows]
  simp only [List.take_length] at hfst hsnd
  simp [hfst, hsnd]

/-- C1 counterexample: On inputs `[None]` and `[None]` the diagonal
move costs `0` and wins, so `align_sequences` returns the double-gap row
`(None, None)` — with the empty embedding lookup and gap penalty `1`. -/
theorem C1_counterexample :
    align_sequences (α := ℤ) (pair_cost_empty 1) 1 [none] [none] =
      some [(none, none)] := by
  decide

lemma tok_ne_none (xs : List (Option String)) (i : ℕ) (h : i < xs.length)
    (hx : none ∉ xs) : tok xs i ≠ none := by
  intro hcontra
  apply hx
  rw [← hcontra]
  rw [tok, List.getD_eq_getElem xs none h]
  exact List.getElem_mem h

lemma traceback_no_double_gap {α : Type} [LinearOrderedCommRing α]
    (pc : Option String → Option String → α) (g : α)
    (left right : List (Option String))
    (hl : none ∉ left) (hr : none ∉ right) :
    ∀ fuel i j : ℕ, i ≤ left.length → j ≤ right.length →
      ∀ rows, tracebackAux pc g left right fuel i j = some rows →
        (none, none) ∉ rows := by
  intro fuel
  induction fuel with
  | zero =>
    intro i j hi hj rows hrows
    match i, j with
    | 0, 0 =>
      rw [tracebackAux_zero_zero] at hrows
      injection hrows with h
      subst h
      simp
    | i + 1, j =>
      simp [tracebackAux] at hrows
    | 0, j + 1 =>
      simp [tracebackAux] at hrows
  | succ fuel ih =>
    intro i j hi hj rows hrows
    match i, j with
    | 0, 0 =>
      rw [tracebackAux_zero_zero] at hrows
      injection hrows with h
      subst h
      simp
    | i + 1, 0 =>
      rw [tracebackAux_succ_zero] at hrows
      cases hsub : tracebackAux pc g left right fuel i 0 with
      | none => rw [hsub] at hrows; simp at hrows
      | some rows0 =>
        rw [hsub] at hrows
        simp only [Option.map_some'] at hrows
        injection hrows with h
        subst h
        intro hmem
        rcases List.mem_append.mp hmem with hmem1 | hmem2
        · exact ih i 0 (by omega) hj rows0 hsub hmem1
        · have heq := List.mem_singleton.mp hmem2
          have h1 : (none : Option String) = tok left i :=
            congrArg Prod.fst heq
          exact tok_ne_none left i (by omega) hl h1.symm
    | 0, j + 1 =>
      rw [tracebackAux_zero_succ] at hrows
      cases hsub : tracebackAux pc g left right fuel 0 j with
      | none => rw [hsub] at hrows; simp at hrows
      | some rows0 =>
        rw [hsub] at hrows
        simp only [Option.map_some'] at hrows
        injection hrows with h
        subst h
        intro hmem
        rcases List.mem_append.mp hmem with hmem1 | hmem2
        · exact ih 0 j hi (by omega) rows0 hsub hmem1
        · have heq := List.mem_singleton.mp hmem2
          have h1 : (none : Option String) = tok right j :=
            congrArg Prod.snd heq
          exact tok_ne_none right j (by omega) hr h1.symm
    | i + 1, j + 1 =>
      cases hmv : (cellAt pc g left right i j).2 with
      | D =>
        rw [tracebackAux_succ_succ_D pc g left right fuel i j hmv] at hrows
        cases hsub : tracebackAux pc g left right fuel i j with
        | none => rw [hsub] at hrows; simp at hrows
        | some rows0 =>
          rw [hsub] at hrows
          simp only [Option.map_some'] at hrows
          injection hrows with h
          subst h
          intro hmem
          rcases List.mem_append.mp hmem with hmem1 | hmem2
          · exact ih i j (by omega) (by omega) rows0 hsub hmem1
          · have heq := List.mem_singleton.mp hmem2
            have h1 : (none : Option String) = tok left i :=
              congrArg Prod.fst heq
            exact tok_ne_none left i (by omega) hl h1.symm
      | U =>
        rw [tracebackAux_succ_succ_U pc g left right fuel i j hmv] at hrows
        cases hsub : tracebackAux pc g left right fuel i (j + 1) with
        | none => rw [hsub] at hrows; simp at hrows
        | some rows0 =>
          rw [hsub] at hrows
          simp only [Option.map_some'] at hrows
          injection hrows with h
          subst h
          intro hmem
          rcases List.mem_append.mp hmem with hmem1 | hmem2
          · exact ih i (j + 1) (by omega) hj rows0 hsub hmem1
          · have heq := List.mem_singleton.mp hmem2
            have h1 : (none : Option String) = tok left i :=
              congrArg Prod.fst heq
            exact tok_ne_none left i (by omega) hl h1.symm
      | L =>
        rw [tracebackAux_succ_succ_L pc g left right fuel i j hmv] at hrows
        cases hsub : tracebackAux pc g left right fuel (i + 1) j with
        | none => rw [hsub] at hrows; simp at hrows
        | some rows0 =>
          rw [hsub] at hrows
          simp only [Option.map_some'] at hrows
          injection hrows with h
          subst h
          intro hmem
          rcases List.mem_append.mp hmem with hmem1 | hmem2
          · exact ih (i + 1) j hi (by omega) rows0 hsub hmem1
          · have heq := List.mem_singleton.mp hmem2
            have h1 : (none : Option String) = tok right j :=
              congrArg Prod.snd heq
            exact tok_ne_none right j (by omega) hr h1.symm

/-- C1 amended: Provided neither input sequence itself contains a gap
token, no row of the alignment returned by `align_sequences` has both
components absent. (With gap tokens in both inputs the claim fails, see the
counterexample: the zero-cost diagonal pairs two input gaps.) -/
theorem C1_no_double_gap {α : Type} [LinearOrderedCommRing α]
    (pc : Option String → Option String → α) (g : α)
    (left right : List (Option String))
    (hl : none ∉ left) (hr : none ∉ right)
    (rows : List AlignedRow)
    (hrows : align_sequences pc g left right = some rows) :
    (none, none) ∉ rows :=
  traceback_no_double_gap pc g left right hl hr
    (left.length + right.length) left.length right.length le_rfl le_rfl
    rows hrows

/-- Witness for C1: gap-free inputs `["a"]`, `["b"]` align to the single row
`("a", "b")`, which is not double-gap. -/
theorem C1_witness :
    ((none : Option String) ∉ [some "a"]) ∧
    ((none : Option String) ∉ [some "b"]) ∧
    (align_sequences (α := ℤ) (pair_cost_empty 1) 1 [some "a"] [some "b"] =
      some [(some "a", some "b")]) ∧
    ((none, none) ∉ [((some "a", some "b") : AlignedRow)]) :=
  ⟨by decide, by decide, by decide,
    C1_no_double_gap (α := ℤ) (pair_cost_empty 1) 1 [some "a"] [some "b"]
      (by decide) (by decide) [(some "a", some "b")] (by decide)⟩

/-- The selected cost of a cell does not depend on the order of the up and
left candidates (only the recorded move does). -/
lemma cell_fst_comm {α : Type} [LinearOrder α] (a b c : α) :
    (cell a b c).1 = (cell a c b).1 := by
  unfold cell
  by_cases h1 : b < a <;> by_cases h2 : c < a <;>
    simp only [h1, h2, if_true, if_false]
  · by_cases h3 : c < b
    · simp only [h3, lt_asymm h3, if_true, if_false]
    · simp only [h3, if_false]
      by_cases h4 : b < c
      · simp only [h4, if_true]
      · simp only [h4, if_false]
        exact le_antisymm (not_lt.mp h3) (not_lt.mp h4)
  · have h3 : ¬ c < b := fun hc => h2 (lt_trans hc h1)
    simp only [h1, h3, if_true, if_false]
  · have h4 : ¬ b < c :=
      fun hb => absurd (lt_of_lt_of_le h2 (not_lt.mp h1)) (lt_asymm hb)
    simp only [h2, h4, if_true, if_false]

/-- Cost function for the C8 counterexample: `_pair_cost` with gap penalty `0` and the
embedding lookup `{"a" ↦ [1, 0], "b" ↦ [0, 1]}`: equal tokens of the lookup
are at cosine distance `0`, the mixed pair at distance `1` (orthogonal unit
vectors — exact even in float arithmetic); other tokens fall back to the gap
penalty. -/
def pc_ab : Option String → Option String → ℤ
  | none, none => 0
  | none, some _ => 0
  | some _, none => 0
  | some x, some y =>
    if (x = "a" ∨ x = "b") ∧ (y = "a" ∨ y = "b") then (if x = y then 0 else 1)
    else 0

/-- C8 counterexample: with the symmetric cost `pc_ab` and gap penalty
`0`, aligning `["a"]` with `["b"]` gives `[(gap,"b"), ("a",gap)]`, but the
swapped call gives `[(gap,"a"), ("b",gap)]` — not the row-wise mirror
`[("b",gap), (gap,"a")]`: the up-over-left tie-break is not swap-symmetric. -/
theorem C8_counterexample :
    align_sequences pc_ab 0 [some "b"] [some "a"] ≠
      (align_sequences pc_ab 0 [some "a"] [some "b"]).map
        (List.map (fun row => (row.2, row.1))) := by
  decide

/-- C8 amended: With symmetric pair costs the DP cost table of the
swapped problem is the transpose of the original one (hence the total
alignment cost is symmetric); the returned rows need not mirror (see the
counterexample). -/
theorem C8_dp_transpose {α : Type} [LinearOrderedCommRing α]
    (pc : Option String → Option String → α) (g : α)
    (left right : List (Option String))
    (hsym : ∀ x y, pc x y = pc y x) :
    ∀ i j : ℕ, dp pc g right left j i = dp pc g left right i j := by
  suffices H : ∀ n i j, i + j = n →
      dp pc g right left j i = dp pc g left right i j by
    intro i j
    exact H (i + j) i j rfl
  intro n
  induction n using Nat.strong_induction_on with
  | _ n ih =>
    intro i j hn
    match i, j with
    | 0, 0 => rfl
    | i + 1, 0 => rfl
    | 0, j + 1 => rfl
    | i + 1, j + 1 =>
      rw [dp_succ_succ, dp_succ_succ]
      unfold cellAt
      rw [cell_fst_comm]
      have e1 : dp pc g right left j i = dp pc g left right i j :=
        ih (i + j) (by omega) i j rfl
      have e2 : dp pc g right left j (i + 1) = dp pc g left right (i + 1) j :=
        ih (i + 1 + j) (by omega) (i + 1) j rfl
      have e3 : dp pc g right left (j + 1) i = dp pc g left right i (j + 1) :=
        ih (i + (j + 1)) (by omega) i (j + 1) rfl
      rw [e1, e2, e3, hsym (tok right j) (tok left i)]

/-- Witness for C8 (amended): the empty-lookup pair cost is symmetric, and
the transposed table entry agrees at `(1,1)` for `["a"]` against `[gap]`. -/
theorem C8_witness :
    (∀ x y, pair_cost_empty (1 : ℤ) x y = pair_cost_empty 1 y x) ∧
    dp (α := ℤ) (pair_cost_empty 1) 1 [none] [some "a"] 1 1 =
      dp (pair_cost_empty 1) 1 [some "a"] [none] 1 1 := by
  have hsym : ∀ x y, pair_cost_empty (1 : ℤ) x y = pair_cost_empty 1 y x := by
    intro x y
    cases x <;> cases y <;> rfl
  exact ⟨hsym, C8_dp_transpose (pair_cost_empty 1) 1 [some "a"] [none] hsym 1 1⟩

/-- The early-return of `_cosine_distance` agrees with the bare clamped
formula: when a norm is zero the formula's division by zero yields `0`, the
clamp keeps it, and the distance is exactly `1`. -/
lemma cosine_distance_eq_spec (u v : List ℝ) :
    cosine_distance u v = cosine_distance_spec u v := by
  simp only [cosine_distance, cosine_distance_spec]
  by_cases h : Real.sqrt (u.foldl (fun acc x => acc + x * x) 0) = 0 ∨
      Real.sqrt (v.foldl (fun acc y => acc + y * y) 0) = 0
  · rw [if_pos h]
    have hmul : Real.sqrt (u.foldl (fun acc x => acc + x * x) 0) *
        Real.sqrt (v.foldl (fun acc y => acc + y * y) 0) = 0 :=
      mul_eq_zero.mpr h
    rw [hmul, div_zero, min_eq_left zero_le_one,
      max_eq_left (by norm_num : (-1 : ℝ) ≤ 0)]
    norm_num
  · rw [if_neg h]

/-- C9: `_pair_cost` is exactly the specification's cost model: `0` for
two gaps, the gap penalty for exactly one gap or a missing vector, and
otherwise the clamped cosine distance `1 − clamp(dot/(‖u‖·‖v‖), −1, 1)` —
which is exactly `1` whenever either vector has zero norm. -/
theorem C9_pair_cost_spec_eq (embeddings : String → Option (List ℝ)) (g : ℝ)
    (li ri : Option String) :
    pair_cost embeddings g li ri = pair_cost_spec embeddings g li ri := by
  cases li with
  | none => cases ri <;> rfl
  | some l =>
    cases ri with
    | none => rfl
    | some r =>
      simp only [pair_cost, pair_cost_spec]
      cases embeddings l with
      | none => rfl
      | some u =>
        cases embeddings r with
        | none => rfl
        | some v => exact cosine_distance_eq_spec u v
